import Mathlib

/-!
Verification of the WHERE-constraints predicate-simplification stage
(src/Interpreters/WhereConstraintsOptimizer.cpp) and of the integer
text-formatting helper (dbms/include/DB/IO/WriteHelpers.h).

The optimizer's collaborators (expression trees, tree hashing, the CNF data
model and converter, ConstraintsDescription, ComparisonGraph) are not part of
the visible sources; they are modelled from the specification (spec.md §3,
§4.1-§4.3).  The driver and the helper functions of
WhereConstraintsOptimizer.cpp are translated directly from the source.
-/

/-- Modelled from the spec: the expression tree (spec §3, §9) — a closed tagged
variant with column references, literal values and function calls
(name + ordered arguments). -/
inductive Expr where
  | column (name : String)
  | literal (val : Int)
  | func (name : String) (args : List Expr)

mutual
def Expr.beq : Expr → Expr → Bool
  | Expr.column a, Expr.column b => a == b
  | Expr.literal a, Expr.literal b => a == b
  | Expr.func n a, Expr.func m b => n == m && Expr.beqArgs a b
  | _, _ => false
def Expr.beqArgs : List Expr → List Expr → Bool
  | [], [] => true
  | x :: xs, y :: ys => Expr.beq x y && Expr.beqArgs xs ys
  | _, _ => false
end

mutual
def Expr.beqIffEq : ∀ (a b : Expr), Expr.beq a b = true ↔ a = b
  | Expr.column x, b => by cases b <;> simp [Expr.beq]
  | Expr.literal x, b => by cases b <;> simp [Expr.beq]
  | Expr.func n xs, b => by
    cases b with
    | column y => simp [Expr.beq]
    | literal y => simp [Expr.beq]
    | func m ys => simp [Expr.beq, Expr.beqArgsIffEq xs ys]
def Expr.beqArgsIffEq : ∀ (as bs : List Expr), Expr.beqArgs as bs = true ↔ as = bs
  | [], bs => by cases bs <;> simp [Expr.beqArgs]
  | x :: xs, bs => by
    cases bs with
    | nil => simp [Expr.beqArgs]
    | cons y ys => simp [Expr.beqArgs, Expr.beqIffEq x y, Expr.beqArgsIffEq xs ys]
end

instance : DecidableEq Expr := fun a b => decidable_of_iff _ (Expr.beqIffEq a b)

/-- Modelled from the spec: `clone()` produces an independent deep copy of a
tree (spec §3).  Under value semantics a deep copy is the value itself. -/
def Expr.clone (e : Expr) : Expr := e

def strHash (s : String) : Nat :=
  s.data.foldl (fun h c => h * 31 + c.toNat) 0

mutual
/-- Modelled from the spec: `IAST::getTreeHash` — the structural fingerprint of
a node, a hash of operator/value/children, order-sensitive (spec §3).
Fingerprints of distinct trees can collide (spec §4.1, §7). -/
def getTreeHash : Expr → Nat
  | Expr.column n => 1 + 31 * strHash n
  | Expr.literal v => 2 + 31 * (2 * v.natAbs + (if v < 0 then 1 else 0))
  | Expr.func n args => 3 + 31 * strHash n + 37 * getTreeHashArgs args
def getTreeHashArgs : List Expr → Nat
  | [] => 5
  | e :: es => getTreeHash e + 1000003 * getTreeHashArgs es
end

/-- Modelled from the spec: `CNFQuery::AtomicFormula` — a predicate expression
together with a polarity flag (spec §3). -/
structure AtomicFormula where
  negative : Bool
  ast : Expr
deriving DecidableEq

/-- Modelled from the spec: `CNFQuery::OrGroup` — an ordered collection of
atomic formulas, semantically a disjunction; duplicate atoms may occur and are
semantically irrelevant (spec §3). -/
abbrev OrGroup := List AtomicFormula

/-- Modelled from the spec: `CNFQuery` — a sequence of OR-groups, semantically
their conjunction (spec §3). -/
abbrev CNFQuery := List OrGroup

/-- The relation kinds of the comparison graph (spec §3, §4.3). -/
inductive CompareResult where
  | EQUAL
  | NOT_EQUAL
  | LESS
  | LESS_OR_EQUAL
  | GREATER
  | GREATER_OR_EQUAL
  | UNKNOWN
deriving DecidableEq

/-- Modelled from the spec: `ComparisonGraph::getCompareResult` — maps a
comparison function name to its relation kind; non-comparison names give
UNKNOWN (spec §4.3). -/
def ComparisonGraph.getCompareResult (name : String) : CompareResult :=
  if name = "equals" then CompareResult.EQUAL
  else if name = "notEquals" then CompareResult.NOT_EQUAL
  else if name = "less" then CompareResult.LESS
  else if name = "lessOrEquals" then CompareResult.LESS_OR_EQUAL
  else if name = "greater" then CompareResult.GREATER
  else if name = "greaterOrEquals" then CompareResult.GREATER_OR_EQUAL
  else CompareResult.UNKNOWN

/-- Modelled from the spec: `ComparisonGraph::inverseCompareResult` — the
logical negation of a relation kind: LESS ↔ GREATER_OR_EQUAL,
GREATER ↔ LESS_OR_EQUAL, EQUAL ↔ NOT_EQUAL (spec §4.3). -/
def ComparisonGraph.inverseCompareResult : CompareResult → CompareResult
  | CompareResult.EQUAL => CompareResult.NOT_EQUAL
  | CompareResult.NOT_EQUAL => CompareResult.EQUAL
  | CompareResult.LESS => CompareResult.GREATER_OR_EQUAL
  | CompareResult.GREATER_OR_EQUAL => CompareResult.LESS
  | CompareResult.GREATER => CompareResult.LESS_OR_EQUAL
  | CompareResult.LESS_OR_EQUAL => CompareResult.GREATER
  | CompareResult.UNKNOWN => CompareResult.UNKNOWN

/-- Modelled from the spec: the interface of `ComparisonGraph` that the
optimizer consumes — `isAlwaysCompare`, `isPossibleCompare` and
`getEqualConst` (spec §4.3).  A value of this structure packages the three
query functions of one built graph. -/
structure ComparisonGraph where
  isAlwaysCompare : CompareResult → Expr → Expr → Bool
  isPossibleCompare : CompareResult → Expr → Expr → Bool
  getEqualConst : Expr → Option Expr

/-- Modelled from the spec: the stable identifier of one declared-constraint
atom — its AND-group index and its position inside the group (spec §4.2). -/
structure AtomId where
  and_group : Nat
  atom : Nat
deriving DecidableEq

/-- Modelled from the spec: `ConstraintsDescription` — the declared-true table
invariants stored as CNF, together with the comparison graph derived from them
(spec §3, §4.2). -/
structure ConstraintsDescription where
  data : List OrGroup
  graph : ComparisonGraph

def ConstraintsDescription.getConstraintData (cd : ConstraintsDescription) : List OrGroup :=
  cd.data

def ConstraintsDescription.getGraph (cd : ConstraintsDescription) : ComparisonGraph :=
  cd.graph

def collectGroupAtomIds (i : Nat) (e : Expr) : Nat → OrGroup → List AtomId
  | _, [] => []
  | j, c :: cs =>
    (if getTreeHash c.ast = getTreeHash e then [AtomId.mk i j] else [])
      ++ collectGroupAtomIds i e (j + 1) cs

def collectAtomIds (e : Expr) : Nat → List OrGroup → List AtomId
  | _, [] => []
  | i, g :: gs => collectGroupAtomIds i e 0 g ++ collectAtomIds e (i + 1) gs

/-- Modelled from the spec: `ConstraintsDescription::getAtomIds` — the
identifiers of every declared-constraint atom whose expression fingerprint
equals the argument's; absent from the index means no value (spec §4.2). -/
def ConstraintsDescription.getAtomIds (cd : ConstraintsDescription) (e : Expr) :
    Option (List AtomId) :=
  let ids := collectAtomIds e 0 cd.data
  if ids.isEmpty then none else some ids

def defaultAtom : AtomicFormula := AtomicFormula.mk false (Expr.literal 0)

def atomAt (cd : ConstraintsDescription) (id : AtomId) : AtomicFormula :=
  (cd.data.getD id.and_group []).getD id.atom defaultAtom

/-- Modelled from the spec: `ConstraintsDescription::getAtomsById` — resolves
identifiers to the stored atomic formulas (spec §4.2). -/
def ConstraintsDescription.getAtomsById (cd : ConstraintsDescription) (ids : List AtomId) :
    List AtomicFormula :=
  ids.map (atomAt cd)

/-- WhereConstraintsOptimizer.cpp lines 27-32. -/
inductive MatchState where
  | FULL_MATCH
  | NOT_MATCH
  | NONE
deriving DecidableEq

/-- WhereConstraintsOptimizer.cpp lines 35-44: the source function `match`
(renamed: `match` is reserved).  It compares only the tree hashes of the two
expressions. -/
def matchAtoms (a b : AtomicFormula) : MatchState :=
  let match_means_ok : Bool := Bool.xor (Bool.xor true a.negative) b.negative
  if getTreeHash a.ast = getTreeHash b.ast then
    if match_means_ok then MatchState.FULL_MATCH else MatchState.NOT_MATCH
  else MatchState.NONE

/-- WhereConstraintsOptimizer.cpp lines 59-66: the inner loop of
`checkIfGroupAlwaysTrueFullMatch` — for each FULL_MATCH the counter of the
matched constraint group is decremented and a zero counter returns true.
Counters are modelled as Int, mirroring size_t in that a decrement of a zero
counter does not produce zero. -/
def processFullMatches (atom : AtomicFormula) :
    List (AtomId × AtomicFormula) → List Int → List Int × Bool
  | [], found => (found, false)
  | p :: rest, found =>
    if matchAtoms p.2 atom = MatchState.FULL_MATCH then
      let cnt := found.getD p.1.and_group 0 - 1
      let found2 := found.set p.1.and_group cnt
      if cnt = 0 then (found2, true) else processFullMatches atom rest found2
    else processFullMatches atom rest found

/-- WhereConstraintsOptimizer.cpp lines 53-68: the outer loop of
`checkIfGroupAlwaysTrueFullMatch` over the atoms of the query group. -/
def checkGroupAtomsLoop (cd : ConstraintsDescription) :
    List AtomicFormula → List Int → Bool
  | [], _ => false
  | atom :: rest, found =>
    match cd.getAtomIds atom.ast with
    | none => checkGroupAtomsLoop cd rest found
    | some ids =>
      let r := processFullMatches atom (ids.zip (cd.getAtomsById ids)) found
      if r.2 then true else checkGroupAtomsLoop cd rest r.1

/-- WhereConstraintsOptimizer.cpp lines 46-70. -/
def checkIfGroupAlwaysTrueFullMatch (group : OrGroup) (cd : ConstraintsDescription) : Bool :=
  checkGroupAtomsLoop cd group (cd.data.map (fun g => (g.length : Int)))

/-- WhereConstraintsOptimizer.cpp lines 72-83. -/
def getExpectedCompare (atom : AtomicFormula) : CompareResult :=
  match atom.ast with
  | Expr.func n _ =>
    let expected := ComparisonGraph.getCompareResult n
    if atom.negative then ComparisonGraph.inverseCompareResult expected else expected
  | _ => CompareResult.UNKNOWN

/-- WhereConstraintsOptimizer.cpp lines 86-98: the loop returns at the first
atom whose expression is a function with exactly two arguments. -/
def checkIfGroupAlwaysTrueGraph : OrGroup → ComparisonGraph → Bool
  | [], _ => false
  | atom :: rest, graph =>
    match atom.ast with
    | Expr.func _ [x, y] => graph.isAlwaysCompare (getExpectedCompare atom) x y
    | _ => checkIfGroupAlwaysTrueGraph rest graph

/-- WhereConstraintsOptimizer.cpp lines 101-115. -/
def checkIfAtomAlwaysFalseFullMatch (atom : AtomicFormula) (cd : ConstraintsDescription) : Bool :=
  match cd.getAtomIds atom.ast with
  | some ids =>
    (cd.getAtomsById ids).any (fun c => decide (matchAtoms c atom = MatchState.NOT_MATCH))
  | none => false

/-- WhereConstraintsOptimizer.cpp lines 117-128. -/
def checkIfAtomAlwaysFalseGraph (atom : AtomicFormula) (graph : ComparisonGraph) : Bool :=
  match atom.ast with
  | Expr.func _ [x, y] => !(graph.isPossibleCompare (getExpectedCompare atom) x y)
  | _ => false

mutual
/-- WhereConstraintsOptimizer.cpp lines 130-142: replace a term wholesale by a
clone of its pinned constant when one exists, otherwise recurse into the
children. -/
def replaceToConstants (term : Expr) (graph : ComparisonGraph) : Expr :=
  match graph.getEqualConst term with
  | some c => Expr.clone c
  | none =>
    match term with
    | Expr.func n args => Expr.func n (replaceToConstantsArgs args graph)
    | e => e
def replaceToConstantsArgs : List Expr → ComparisonGraph → List Expr
  | [], _ => []
  | e :: es, graph => replaceToConstants e graph :: replaceToConstantsArgs es graph
end

/-- WhereConstraintsOptimizer.cpp lines 144-153. -/
def replaceTermsToConstants (atom : AtomicFormula) (graph : ComparisonGraph) : AtomicFormula :=
  AtomicFormula.mk atom.negative (replaceToConstants (Expr.clone atom.ast) graph)

def distribOr (cnfs : List CNFQuery) : CNFQuery :=
  cnfs.foldl (fun acc c => acc.flatMap (fun g => c.map (fun g2 => g ++ g2))) [[]]

mutual
/-- Modelled from the spec: the recursive core of `TreeCNFConverter::toCNF` —
distributes OR over AND per standard normal-form laws, moving negation inward
by De Morgan so that atom polarity ends in the `negative` flag (spec §4.1). -/
def toCNFgo : Expr → Bool → CNFQuery
  | Expr.func "not" [x], neg => toCNFgo x (!neg)
  | Expr.func "and" args, neg =>
    if neg then distribOr (toCNFgoArgs args true)
    else (toCNFgoArgs args false).flatten
  | Expr.func "or" args, neg =>
    if neg then (toCNFgoArgs args true).flatten
    else distribOr (toCNFgoArgs args false)
  | e, neg => [[AtomicFormula.mk neg e]]
def toCNFgoArgs : List Expr → Bool → List CNFQuery
  | [], _ => []
  | e :: es, neg => toCNFgo e neg :: toCNFgoArgs es neg
end

/-- Modelled from the spec: the fixed limit on the number of produced groups
that guards the CNF conversion against combinatorial blow-up (spec §4.1). -/
def maxCNFGroups : Nat := 1024

/-- Modelled from the spec: `TreeCNFConverter::toCNF` — the conversion with the
blow-up guard; exceeding the group limit yields the safe single-group fallback
holding the original expression as one atom (spec §4.1). -/
def toCNF (e : Expr) : CNFQuery :=
  let cnf := toCNFgo e false
  if cnf.length > maxCNFGroups then [[AtomicFormula.mk false e]] else cnf

def pullNotAtom : Bool → Expr → AtomicFormula
  | neg, Expr.func "not" [x] => pullNotAtom (!neg) x
  | neg, e => AtomicFormula.mk neg e

/-- Modelled from the spec: `CNFQuery::pullNotOutFunctions` — normalizes each
atom so logical negation lives solely in the `negative` flag, never as a
wrapping NOT node (spec §4.1). -/
def pullNotOutFunctions (cnf : CNFQuery) : CNFQuery :=
  cnf.map (fun g => g.map (fun a => pullNotAtom a.negative a.ast))

def inverseFunctionName (n : String) : Option String :=
  if n = "equals" then some "notEquals"
  else if n = "notEquals" then some "equals"
  else if n = "less" then some "greaterOrEquals"
  else if n = "greater" then some "lessOrEquals"
  else if n = "lessOrEquals" then some "greater"
  else if n = "greaterOrEquals" then some "less"
  else none

def pushNotInAtom (a : AtomicFormula) : AtomicFormula :=
  if a.negative then
    match a.ast with
    | Expr.func n [x, y] =>
      match inverseFunctionName n with
      | some m => AtomicFormula.mk false (Expr.func m [x, y])
      | none => a
    | _ => a
  else a

/-- Modelled from the spec: `CNFQuery::pushNotInFunctions` (spelled
`pushNotInFuntions` at the call site of the driver) — rewrites each negated
comparison atom into the semantically inverse comparison operator (spec §4.1).
-/
def pushNotInFuntions (cnf : CNFQuery) : CNFQuery :=
  cnf.map (fun g => g.map pushNotInAtom)

/-- Modelled from the spec: `CNFQuery::filterAlwaysTrueGroups` — removes any
OR-group for which the predicate is false (spec §4.1). -/
def filterAlwaysTrueGroups (p : OrGroup → Bool) (cnf : CNFQuery) : CNFQuery :=
  cnf.filter p

/-- Modelled from the spec: `CNFQuery::filterAlwaysFalseAtoms` — removes from
each group any atom for which the predicate is false; a group emptied this way
stays in place, denoting falsity (spec §4.1). -/
def filterAlwaysFalseAtoms (p : AtomicFormula → Bool) (cnf : CNFQuery) : CNFQuery :=
  cnf.map (fun g => g.filter p)

/-- Modelled from the spec: `CNFQuery::transformAtoms` (spec §4.1). -/
def transformAtoms (f : AtomicFormula → AtomicFormula) (cnf : CNFQuery) : CNFQuery :=
  cnf.map (fun g => g.map f)

def subsetGroup (g1 g2 : OrGroup) : Bool :=
  g1.all (fun a => decide (a ∈ g2))

/-- Modelled from the spec: `CNFQuery::reduce` — removes duplicate atoms within
each group and removes any group that is a structural superset of another
group; of set-equal groups the earlier one is kept (spec §4.1). -/
def reduce (cnf : CNFQuery) : CNFQuery :=
  let dl := (cnf.map List.dedup).dedup
  (dl.enum.filter (fun p =>
    !(dl.enum.any (fun q =>
      (q.1 != p.1) && subsetGroup q.2 p.2
        && (!(subsetGroup p.2 q.2) || decide (q.1 < p.1)))))).map (fun p => p.2)

def atomToExpr (a : AtomicFormula) : Expr :=
  if a.negative then Expr.func "not" [a.ast] else a.ast

def groupToExpr (g : OrGroup) : Expr :=
  match g with
  | [] => Expr.literal 0
  | [a] => atomToExpr a
  | _ => Expr.func "or" (g.map atomToExpr)

/-- Modelled from the spec: `TreeCNFConverter::fromCNF` — rebuilds an
AND-of-ORs expression tree; the empty conjunction is the constant true and an
empty group is the constant false (spec §4.1). -/
def fromCNF : CNFQuery → Expr
  | [] => Expr.literal 1
  | [g] => groupToExpr g
  | gs => Expr.func "and" (gs.map groupToExpr)

/-- Modelled from the spec: the query object, of which only the WHERE
expression matters here (spec §4.4). -/
structure ASTSelectQuery where
  whereExpr : Option Expr
deriving DecidableEq

/-- Modelled from the spec: the table metadata snapshot carrying the
constraints description (spec §3). -/
structure StorageMetadata where
  constraints : ConstraintsDescription

def StorageMetadata.getConstraints (m : StorageMetadata) : ConstraintsDescription :=
  m.constraints

/-- WhereConstraintsOptimizer.cpp lines 15-23: the optimizer object. -/
structure WhereConstraintsOptimizer where
  select_query : ASTSelectQuery
  metadata_snapshot : Option StorageMetadata
  optimize_append_index : Bool

/-- WhereConstraintsOptimizer.cpp lines 159-184: the pipeline body of
`perform` run when a WHERE expression and metadata are present.  The external
index-constraint appender is a parameter (spec §6). -/
def performWhere (cd : ConstraintsDescription) (optimize_append_index : Bool)
    (appender : CNFQuery → CNFQuery) (w : Expr) : Expr :=
  let compare_graph := cd.getGraph
  let cnf0 := toCNF w
  let cnf1 := pullNotOutFunctions cnf0
  let cnf2 := filterAlwaysTrueGroups (fun group =>
    !(checkIfGroupAlwaysTrueFullMatch group cd)
      && !(checkIfGroupAlwaysTrueGraph group compare_graph)) cnf1
  let cnf3 := filterAlwaysFalseAtoms (fun atom =>
    !(checkIfAtomAlwaysFalseFullMatch atom cd)
      && !(checkIfAtomAlwaysFalseGraph atom compare_graph)) cnf2
  let cnf4 := transformAtoms (fun atom => replaceTermsToConstants atom compare_graph) cnf3
  let cnf5 := reduce cnf4
  let cnf6 := pushNotInFuntions cnf5
  let cnf7 := if optimize_append_index then appender cnf6 else cnf6
  fromCNF cnf7

/-- WhereConstraintsOptimizer.cpp lines 155-186: `perform` — a no-op unless
both a WHERE expression and the metadata snapshot are present; otherwise the
WHERE expression is replaced by the optimized one. -/
def WhereConstraintsOptimizer.perform (o : WhereConstraintsOptimizer)
    (appender : CNFQuery → CNFQuery) : ASTSelectQuery :=
  match o.select_query.whereExpr, o.metadata_snapshot with
  | some w, some m =>
    ASTSelectQuery.mk
      (some (performWhere m.getConstraints o.optimize_append_index appender w))
  | _, _ => o.select_query

def isLiteralExpr : Expr → Bool
  | Expr.literal _ => true
  | _ => false

/-- Modelled from the spec: the binary-comparison reading of a constraint atom
used by graph construction — the relation kind adjusted by the atom's
polarity, when the expression is a binary comparison (spec §4.3). -/
def comparisonAtomRel (a : AtomicFormula) : Option (CompareResult × Expr × Expr) :=
  match a.ast with
  | Expr.func n [x, y] =>
    let r0 := ComparisonGraph.getCompareResult n
    let r := if a.negative then ComparisonGraph.inverseCompareResult r0 else r0
    if r = CompareResult.UNKNOWN then none else some (r, x, y)
  | _ => none

def findClass (cls : List (List Expr)) (x : Expr) : Option (List Expr) :=
  cls.find? (fun c => decide (x ∈ c))

def addEqualPair (cls : List (List Expr)) (x y : Expr) : List (List Expr) :=
  let cx := (findClass cls x).getD [x]
  let cy := (findClass cls y).getD [y]
  let rest := cls.filter (fun c => decide (c ≠ cx) && decide (c ≠ cy))
  (cx ++ cy).dedup :: rest

def addSingletonClass (cls : List (List Expr)) (x : Expr) : List (List Expr) :=
  if (findClass cls x).isSome then cls else cls ++ [[x]]

/-- Modelled from the spec: graph construction scans every atom of every
declared constraint group; EQUAL relations merge the classes of the two sides,
other comparisons give each side a class (spec §4.3). -/
def graphClasses (cnf : List OrGroup) : List (List Expr) :=
  (cnf.flatMap (fun g => g.filterMap comparisonAtomRel)).foldl
    (fun cls r =>
      if r.1 = CompareResult.EQUAL then addEqualPair cls r.2.1 r.2.2
      else addSingletonClass (addSingletonClass cls r.2.1) r.2.2) []

def classIndexOf (cls : List (List Expr)) (x : Expr) : Option Nat :=
  (cls.enum.find? (fun p => decide (x ∈ p.2))).map (fun p => p.1)

def swapRel : CompareResult → CompareResult
  | CompareResult.LESS => CompareResult.GREATER
  | CompareResult.GREATER => CompareResult.LESS
  | CompareResult.LESS_OR_EQUAL => CompareResult.GREATER_OR_EQUAL
  | CompareResult.GREATER_OR_EQUAL => CompareResult.LESS_OR_EQUAL
  | r => r

def graphEdges (cls : List (List Expr)) (cnf : List OrGroup) :
    List (Nat × CompareResult × Nat) :=
  (cnf.flatMap (fun g => g.filterMap comparisonAtomRel)).filterMap (fun r =>
    if r.1 = CompareResult.EQUAL then none
    else
      match classIndexOf cls r.2.1, classIndexOf cls r.2.2 with
      | some i, some j => some (i, r.1, j)
      | _, _ => none)

def withDuals (rels : List (Nat × CompareResult × Nat)) :
    List (Nat × CompareResult × Nat) :=
  (rels ++ rels.map (fun t => (t.2.2, swapRel t.2.1, t.1))).dedup

/-- Modelled from the spec: composition of relation kinds along a chain —
EQUAL preserves, LESS with LESS_OR_EQUAL yields LESS, contradictory
compositions yield UNKNOWN (spec §4.3). -/
def composeRel : CompareResult → CompareResult → CompareResult
  | CompareResult.EQUAL, r => r
  | r, CompareResult.EQUAL => r
  | CompareResult.LESS, CompareResult.LESS => CompareResult.LESS
  | CompareResult.LESS, CompareResult.LESS_OR_EQUAL => CompareResult.LESS
  | CompareResult.LESS_OR_EQUAL, CompareResult.LESS => CompareResult.LESS
  | CompareResult.LESS_OR_EQUAL, CompareResult.LESS_OR_EQUAL => CompareResult.LESS_OR_EQUAL
  | CompareResult.GREATER, CompareResult.GREATER => CompareResult.GREATER
  | CompareResult.GREATER, CompareResult.GREATER_OR_EQUAL => CompareResult.GREATER
  | CompareResult.GREATER_OR_EQUAL, CompareResult.GREATER => CompareResult.GREATER
  | CompareResult.GREATER_OR_EQUAL, CompareResult.GREATER_OR_EQUAL => CompareResult.GREATER_OR_EQUAL
  | _, _ => CompareResult.UNKNOWN

def closureStep (rels : List (Nat × CompareResult × Nat)) :
    List (Nat × CompareResult × Nat) :=
  (rels ++ rels.flatMap (fun a => rels.filterMap (fun b =>
    if a.2.2 = b.1 then
      let r := composeRel a.2.1 b.2.1
      if r = CompareResult.UNKNOWN then none else some (a.1, r, b.2.2)
    else none))).dedup

def closureIter : Nat → List (Nat × CompareResult × Nat) → List (Nat × CompareResult × Nat)
  | 0, rels => rels
  | n + 1, rels => closureIter n (closureStep rels)

/-- True when holding relation r between two expressions forces the relation e
between them. -/
def impliesRel : CompareResult → CompareResult → Bool
  | CompareResult.EQUAL, e =>
    decide (e = CompareResult.EQUAL) || decide (e = CompareResult.LESS_OR_EQUAL)
      || decide (e = CompareResult.GREATER_OR_EQUAL)
  | CompareResult.LESS, e =>
    decide (e = CompareResult.LESS) || decide (e = CompareResult.LESS_OR_EQUAL)
      || decide (e = CompareResult.NOT_EQUAL)
  | CompareResult.GREATER, e =>
    decide (e = CompareResult.GREATER) || decide (e = CompareResult.GREATER_OR_EQUAL)
      || decide (e = CompareResult.NOT_EQUAL)
  | CompareResult.LESS_OR_EQUAL, e => decide (e = CompareResult.LESS_OR_EQUAL)
  | CompareResult.GREATER_OR_EQUAL, e => decide (e = CompareResult.GREATER_OR_EQUAL)
  | CompareResult.NOT_EQUAL, e => decide (e = CompareResult.NOT_EQUAL)
  | CompareResult.UNKNOWN, _ => false

def graphIsAlwaysCompare (cls : List (List Expr)) (rels : List (Nat × CompareResult × Nat))
    (expected : CompareResult) (x y : Expr) : Bool :=
  if expected = CompareResult.UNKNOWN then false
  else
    match classIndexOf cls x, classIndexOf cls y with
    | some i, some j =>
      if i = j then impliesRel CompareResult.EQUAL expected
      else rels.any (fun t => (t.1 == i) && (t.2.2 == j) && impliesRel t.2.1 expected)
    | _, _ => false

def graphGetEqualConst (cls : List (List Expr)) (x : Expr) : Option Expr :=
  match findClass cls x with
  | some c =>
    match (c.filter isLiteralExpr).dedup with
    | [l] => some l
    | _ => none
  | none => none

/-- Modelled from the spec: building the ComparisonGraph of a constraint CNF —
`isAlwaysCompare` answers from the relation closure (sound, not complete),
`isPossibleCompare` is false only when the closure proves the negated
relation, `getEqualConst` yields the unique literal of the class if any
(spec §4.3). -/
def buildGraph (cnf : List OrGroup) : ComparisonGraph :=
  let cls := graphClasses cnf
  let rels := closureIter (cls.length + 2) (withDuals (graphEdges cls cnf))
  ComparisonGraph.mk
    (fun r x y => graphIsAlwaysCompare cls rels r x y)
    (fun r x y => !(graphIsAlwaysCompare cls rels (ComparisonGraph.inverseCompareResult r) x y))
    (fun x => graphGetEqualConst cls x)

mutual
/-- Modelled from the spec: reference evaluation of an expression at a row
valuation — standard boolean/comparison semantics with nonzero as truthy
(spec §3, §8); unknown functions evaluate to 0. -/
def evalExpr (r : String → Int) : Expr → Int
  | Expr.column n => r n
  | Expr.literal v => v
  | Expr.func n args =>
    let vs := evalArgs r args
    if n = "and" then (if vs.all (fun v => v != 0) then 1 else 0)
    else if n = "or" then (if vs.any (fun v => v != 0) then 1 else 0)
    else if n = "not" then (match vs with | [x] => if x = 0 then 1 else 0 | _ => 0)
    else if n = "equals" then (match vs with | [x, y] => if x = y then 1 else 0 | _ => 0)
    else if n = "notEquals" then (match vs with | [x, y] => if x ≠ y then 1 else 0 | _ => 0)
    else if n = "less" then (match vs with | [x, y] => if x < y then 1 else 0 | _ => 0)
    else if n = "greater" then (match vs with | [x, y] => if x > y then 1 else 0 | _ => 0)
    else if n = "lessOrEquals" then (match vs with | [x, y] => if x ≤ y then 1 else 0 | _ => 0)
    else if n = "greaterOrEquals" then (match vs with | [x, y] => if x ≥ y then 1 else 0 | _ => 0)
    else 0
def evalArgs (r : String → Int) : List Expr → List Int
  | [] => []
  | e :: es => evalExpr r e :: evalArgs r es
end

/-- An atomic formula holds at a row when its expression's truthiness matches
its polarity (spec §3). -/
def atomHolds (r : String → Int) (a : AtomicFormula) : Bool :=
  Bool.xor (evalExpr r a.ast != 0) a.negative

def groupHolds (r : String → Int) (g : OrGroup) : Bool :=
  g.any (atomHolds r)

def cnfHolds (r : String → Int) (cnf : CNFQuery) : Bool :=
  cnf.all (groupHolds r)

/-- A row is consistent with the table's constraints when every declared
constraint group holds at it (spec §3). -/
def constraintsHold (r : String → Int) (cd : ConstraintsDescription) : Bool :=
  cnfHolds r cd.data

def decChar (d : Nat) : Char := Char.ofNat (48 + d)

/-- WriteHelpers.h lines 103-108: the digit loop of `writeIntText`, writing
decimal digits right to left into a buffer of WRITE_HELPERS_MAX_INT_WIDTH = 20
characters; the fuel mirrors the buffer bound. -/
def writeDigitsAux : Nat → Nat → List Char → List Char
  | 0, _, acc => acc
  | f + 1, x, acc => if x = 0 then acc else writeDigitsAux f (x / 10) (decChar (x % 10) :: acc)

def writeDigits (x : Nat) : List Char := writeDigitsAux 20 x []

/-- WriteHelpers.h lines 89-100: the dedicated output for the most negative
value of each byte width. -/
def intMinSpecial (s : Nat) : List Char :=
  if s = 1 then "-128".toList
  else if s = 2 then "-32768".toList
  else if s = 4 then "-2147483648".toList
  else "-9223372036854775808".toList

/-- Two's-complement wraparound of a value into the signed range of an s-byte
integer, modelling the machine negation `x = -x` at line 85. -/
def wrapSigned (s : Nat) (v : Int) : Int :=
  (v + 2 ^ (8 * s - 1)) % 2 ^ (8 * s) - 2 ^ (8 * s - 1)

/-- WriteHelpers.h lines 71-116: `writeIntText` for an s-byte integer type,
returning the characters appended to the buffer.  For an unsigned
instantiation the argument is nonnegative and the negative branch is dead. -/
def writeIntText (s : Nat) (x : Int) : List Char :=
  if x = 0 then ['0']
  else if x < 0 then
    let x2 := wrapSigned s (-x)
    if x2 < 0 then intMinSpecial s
    else '-' :: writeDigits x2.toNat
  else writeDigits x.toNat

/-- The mathematical decimal numeral of a natural number, most significant
digit first, via Mathlib's base-10 digit expansion. -/
def natDecimalChars (n : Nat) : List Char :=
  if n = 0 then ['0'] else ((Nat.digits 10 n).reverse.map decChar)

/-- The mathematical decimal numeral of an integer: a leading minus sign
exactly when negative, no leading zeros. -/
def intDecimalChars (x : Int) : List Char :=
  if x < 0 then '-' :: natDecimalChars x.natAbs else natDecimalChars x.toNat

/-- The claim's reading of subsumption-true: some declared constraint group
has every one of its atoms present in the query group with equal expression
and equal polarity. -/
def groupFullyMatchesSpec (g : OrGroup) (cd : ConstraintsDescription) : Prop :=
  ∃ cg ∈ cd.data, ∀ c ∈ cg, ∃ a ∈ g, a.ast = c.ast ∧ a.negative = c.negative

/-- The removal criterion applied by the driver's filterAlwaysFalseAtoms step
(WhereConstraintsOptimizer.cpp lines 168-172): an atom is removed when either
always-false check fires. -/
def atomRemovedByFalseFilter (atom : AtomicFormula) (cd : ConstraintsDescription) : Bool :=
  checkIfAtomAlwaysFalseFullMatch atom cd || checkIfAtomAlwaysFalseGraph atom cd.getGraph

def isBinaryFunc : Expr → Bool
  | Expr.func _ args => args.length == 2
  | _ => false

instance (g : OrGroup) (cd : ConstraintsDescription) : Decidable (groupFullyMatchesSpec g cd) :=
  inferInstanceAs
    (Decidable (∃ cg ∈ cd.data, ∀ c ∈ cg, ∃ a ∈ g, a.ast = c.ast ∧ a.negative = c.negative))

/-- One-level child map of an expression: a function node maps its arguments,
other nodes have no children (spec §3). -/
def mapChildren (f : Expr → Expr) : Expr → Expr
  | Expr.func n args => Expr.func n (args.map f)
  | e => e

def colAa : Expr := Expr.column "Aa"

def colBB : Expr := Expr.column "BB"

def colX : Expr := Expr.column "x"

def colA : Expr := Expr.column "a"

def colB : Expr := Expr.column "b"

def atomAa : AtomicFormula := AtomicFormula.mk false colAa

def atomBB : AtomicFormula := AtomicFormula.mk false colBB

def atomX : AtomicFormula := AtomicFormula.mk false colX

/-- A declared constraint (Aa OR x), whose atom Aa has the same structural
fingerprint as the distinct column BB. -/
def collisionConstraints : List OrGroup := [[atomAa, atomX]]

def collisionCd : ConstraintsDescription :=
  ConstraintsDescription.mk collisionConstraints (buildGraph collisionConstraints)

/-- A row valuation with Aa = 0, BB = 0, x = 1: it satisfies the constraint
(Aa OR x) while falsifying (Aa OR BB). -/
def rowAx : String → Int := fun n => if n = "x" then 1 else 0

def whereAaOrBB : Expr := Expr.func "or" [colAa, colBB]

def lessAB : Expr := Expr.func "less" [colA, colB]

def geAB : Expr := Expr.func "greaterOrEquals" [colA, colB]

/-- A declared constraint pinning the expression (a < b) to the literal 1. -/
def pinnedConstraints : List OrGroup :=
  [[AtomicFormula.mk false (Expr.func "equals" [lessAB, Expr.literal 1])]]

def pinnedCd : ConstraintsDescription :=
  ConstraintsDescription.mk pinnedConstraints (buildGraph pinnedConstraints)

def whereNotGe : Expr := Expr.func "not" [geAB]

/-- The expression the optimizer produces from NOT (a >= b) under
`pinnedConstraints`. -/
def optimizedOnce : Expr := performWhere pinnedCd false id whereNotGe

/-- A declared constraint a < b, giving the comparison graph a LESS edge. -/
def lessConstraints : List OrGroup := [[AtomicFormula.mk false lessAB]]

def lessCd : ConstraintsDescription :=
  ConstraintsDescription.mk lessConstraints (buildGraph lessConstraints)

/-- A declared constraint NOT BB, whose atom's fingerprint collides with the
distinct column Aa. -/
def oppConstraints : List OrGroup := [[AtomicFormula.mk true colBB]]

def oppCd : ConstraintsDescription :=
  ConstraintsDescription.mk oppConstraints (buildGraph oppConstraints)

/-- C2: the source's `match` (lines 35-44) compares only tree hashes, so the
structurally distinct columns Aa and BB — whose fingerprints collide — are
reported as a full literal match; no deep structural equality is verified. -/
theorem match_full_match_on_hash_collision :
    matchAtoms atomAa atomBB = MatchState.FULL_MATCH ∧
    atomAa.ast ≠ atomBB.ast ∧
    getTreeHash atomAa.ast = getTreeHash atomBB.ast := by decide

/-- C3: `checkIfGroupAlwaysTrueFullMatch` (lines 46-70) reports the group
(Aa OR BB) as fully matching the declared constraint group (Aa OR x), because
both query atoms hash-match the single constraint atom Aa and each occurrence
decrements the group counter; yet the constraint atom x occurs nowhere in the
query group, so the superset criterion of the claim is violated. -/
theorem fullMatch_true_without_superset :
    checkIfGroupAlwaysTrueFullMatch [atomAa, atomBB] collisionCd = true ∧
    ¬ groupFullyMatchesSpec [atomAa, atomBB] collisionCd := by decide

/-- C1: the whole rewrite is unsound.  The row (Aa = 0, BB = 0, x = 1)
satisfies the declared constraint (Aa OR x), the original WHERE (Aa OR BB)
evaluates to false at it, yet `perform` rewrites the WHERE to the constant
true because the hash-collision full match drops the only group. -/
theorem perform_changes_truth_value :
    constraintsHold rowAx collisionCd = true ∧
    (WhereConstraintsOptimizer.mk (ASTSelectQuery.mk (some whereAaOrBB))
        (some (StorageMetadata.mk collisionCd)) false).perform id
      = ASTSelectQuery.mk (some (Expr.literal 1)) ∧
    (evalExpr rowAx whereAaOrBB != 0) = false ∧
    (evalExpr rowAx (Expr.literal 1) != 0) = true := by decide

/-- C7: the optimizer is not idempotent.  From WHERE = NOT (a >= b) under the
constraint (a < b) = 1, the first run produces the expression a < b (the
negation is pushed into the inverse comparison only after constant folding has
run); the second run folds a < b to the pinned literal 1, changing the
expression again. -/
theorem perform_not_idempotent :
    (WhereConstraintsOptimizer.mk (ASTSelectQuery.mk (some whereNotGe))
        (some (StorageMetadata.mk pinnedCd)) false).perform id
      = ASTSelectQuery.mk (some optimizedOnce) ∧
    (WhereConstraintsOptimizer.mk (ASTSelectQuery.mk (some optimizedOnce))
        (some (StorageMetadata.mk pinnedCd)) false).perform id
      ≠ ASTSelectQuery.mk (some optimizedOnce) := by decide

/-- C8: `perform` (lines 155-186) is a no-op whenever the select query has no
WHERE expression or the metadata snapshot is absent. -/
theorem perform_noop_without_where_or_metadata (o : WhereConstraintsOptimizer)
    (ap : CNFQuery → CNFQuery)
    (h : o.select_query.whereExpr = none ∨ o.metadata_snapshot = none) :
    o.perform ap = o.select_query := by
  rcases h with h | h
  · cases hm : o.metadata_snapshot <;>
      simp [WhereConstraintsOptimizer.perform, h, hm]
  · cases hw : o.select_query.whereExpr <;>
      simp [WhereConstraintsOptimizer.perform, h, hw]

theorem perform_noop_without_where_or_metadata_witness :
    (WhereConstraintsOptimizer.mk (ASTSelectQuery.mk (some whereAaOrBB)) none true).perform id
      = ASTSelectQuery.mk (some whereAaOrBB) :=
  perform_noop_without_where_or_metadata
    (WhereConstraintsOptimizer.mk (ASTSelectQuery.mk (some whereAaOrBB)) none true) id
    (Or.inr rfl)

/-- C9: `replaceTermsToConstants` (lines 144-153) returns an atom with the
same polarity flag, and the input expression tree is untouched because the
result is built on a clone (a deep copy, the identity under value semantics).
-/
theorem replaceTermsToConstants_preserves_polarity (atom : AtomicFormula)
    (graph : ComparisonGraph) :
    (replaceTermsToConstants atom graph).negative = atom.negative ∧
    Expr.clone atom.ast = atom.ast :=
  ⟨rfl, rfl⟩

theorem replaceToConstantsArgs_eq_map (args : List Expr) (graph : ComparisonGraph) :
    replaceToConstantsArgs args graph = args.map (fun u => replaceToConstants u graph) := by
  induction args with
  | nil => rfl
  | cons e es ih => simp [replaceToConstantsArgs, ih]

/-- C6: `replaceToConstants` (lines 130-142) replaces a term wholesale by a
clone of its pinned constant when `getEqualConst` yields one — without
descending into the term's children — and only otherwise recurses into each
child with the same rule. -/
theorem replaceToConstants_topdown (term : Expr) (graph : ComparisonGraph) :
    (∀ c, graph.getEqualConst term = some c →
      replaceToConstants term graph = Expr.clone c) ∧
    (graph.getEqualConst term = none →
      replaceToConstants term graph = mapChildren (fun u => replaceToConstants u graph) term) := by
  have hstep : replaceToConstants term graph =
      match graph.getEqualConst term with
      | some c => Expr.clone c
      | none =>
        match term with
        | Expr.func n args => Expr.func n (replaceToConstantsArgs args graph)
        | e => e := by
    cases term <;> rfl
  constructor
  · intro c hc
    rw [hstep, hc]
  · intro hn
    rw [hstep, hn]
    cases term with
    | column n => rfl
    | literal v => rfl
    | func n args => simp [mapChildren, replaceToConstantsArgs_eq_map]

theorem replaceToConstants_topdown_witness :
    pinnedCd.getGraph.getEqualConst lessAB = some (Expr.literal 1) ∧
    replaceToConstants lessAB pinnedCd.getGraph = Expr.clone (Expr.literal 1) :=
  ⟨by decide,
    (replaceToConstants_topdown lessAB pinnedCd.getGraph).1 (Expr.literal 1) (by decide)⟩

/-- C4 counterexample: under the constraint a < b, the two-atom group
((a < b) OR x) is reported always-true by `checkIfGroupAlwaysTrueGraph`
(lines 86-98) — the function answers from the first binary-function atom and
never requires the group to consist of a single atom. -/
theorem graph_check_true_on_two_atom_group :
    checkIfGroupAlwaysTrueGraph [AtomicFormula.mk false lessAB, atomX] lessCd.getGraph = true ∧
    ([AtomicFormula.mk false lessAB, atomX] : OrGroup).length ≠ 1 := by decide

/-- C4 (amended): `checkIfGroupAlwaysTrueGraph` returns true exactly when the
first atom of the group whose expression is a function with exactly two
arguments exists and `isAlwaysCompare` holds for its negation-adjusted
relation on its two arguments; atoms after that first one are never examined.
-/
theorem graph_check_first_binary_characterization (g : OrGroup) (graph : ComparisonGraph) :
    checkIfGroupAlwaysTrueGraph g graph = true ↔
      ∃ a n x y, g.find? (fun b => isBinaryFunc b.ast) = some a ∧
        a.ast = Expr.func n [x, y] ∧
        graph.isAlwaysCompare (getExpectedCompare a) x y = true := by
  induction g with
  | nil => simp [checkIfGroupAlwaysTrueGraph]
  | cons atom rest ih =>
    obtain ⟨neg, ast⟩ := atom
    cases ast with
    | column nm =>
      rw [show checkIfGroupAlwaysTrueGraph (AtomicFormula.mk neg (Expr.column nm) :: rest) graph
            = checkIfGroupAlwaysTrueGraph rest graph from rfl]
      rw [ih]
      simp [isBinaryFunc]
    | literal v =>
      rw [show checkIfGroupAlwaysTrueGraph (AtomicFormula.mk neg (Expr.literal v) :: rest) graph
            = checkIfGroupAlwaysTrueGraph rest graph from rfl]
      rw [ih]
      simp [isBinaryFunc]
    | func nm args =>
      cases args with
      | nil =>
        rw [show checkIfGroupAlwaysTrueGraph
              (AtomicFormula.mk neg (Expr.func nm []) :: rest) graph
              = checkIfGroupAlwaysTrueGraph rest graph from rfl]
        rw [ih]
        simp [isBinaryFunc]
      | cons x args1 =>
        cases args1 with
        | nil =>
          rw [show checkIfGroupAlwaysTrueGraph
                (AtomicFormula.mk neg (Expr.func nm [x]) :: rest) graph
                = checkIfGroupAlwaysTrueGraph rest graph from rfl]
          rw [ih]
          simp [isBinaryFunc]
        | cons y args2 =>
          cases args2 with
          | nil =>
            rw [show checkIfGroupAlwaysTrueGraph
                  (AtomicFormula.mk neg (Expr.func nm [x, y]) :: rest) graph
                  = graph.isAlwaysCompare
                      (getExpectedCompare (AtomicFormula.mk neg (Expr.func nm [x, y]))) x y
                  from rfl]
            simp [List.find?, isBinaryFunc]
            constructor
            · intro h
              exact ⟨nm, x, y, ⟨rfl, rfl, rfl⟩, h⟩
            · rintro ⟨n2, x2, y2, ⟨h1, h2, h3⟩, hchk⟩
              subst h2
              subst h3
              exact hchk
          | cons z args3 =>
            rw [show checkIfGroupAlwaysTrueGraph
                  (AtomicFormula.mk neg (Expr.func nm (x :: y :: z :: args3)) :: rest) graph
                  = checkIfGroupAlwaysTrueGraph rest graph from rfl]
            rw [ih]
            simp [isBinaryFunc]

theorem getD_append_length {α : Type} (pre : List α) (a : α) (post : List α) (d : α) :
    (pre ++ a :: post).getD pre.length d = a := by
  induction pre with
  | nil => rfl
  | cons x xs ih => simpa using ih

theorem collectGroup_map_atomAt (cd : ConstraintsDescription) (e : Expr) (i : Nat)
    (gpre ginner : OrGroup) (hg : cd.data.getD i [] = gpre ++ ginner) :
    (collectGroupAtomIds i e gpre.length ginner).map (atomAt cd)
      = ginner.filter (fun c => decide (getTreeHash c.ast = getTreeHash e)) := by
  induction ginner generalizing gpre with
  | nil => rfl
  | cons c cs ih =>
    have hc : atomAt cd (AtomId.mk i gpre.length) = c := by
      unfold atomAt
      rw [hg]
      exact getD_append_length gpre c cs defaultAtom
    have hg2 : cd.data.getD i [] = (gpre ++ [c]) ++ cs := by
      rw [hg]; simp
    have ih2 := ih (gpre ++ [c]) hg2
    have hlen : (gpre ++ [c]).length = gpre.length + 1 := by simp
    rw [hlen] at ih2
    by_cases hh : getTreeHash c.ast = getTreeHash e
    · simp [collectGroupAtomIds, hh, hc, ih2, List.filter_cons]
    · simp [collectGroupAtomIds, hh, ih2, List.filter_cons]

theorem collectAtomIds_map_atomAt (cd : ConstraintsDescription) (e : Expr)
    (pre rest : List OrGroup) (hd : cd.data = pre ++ rest) :
    (collectAtomIds e pre.length rest).map (atomAt cd)
      = rest.flatMap (fun g => g.filter (fun c => decide (getTreeHash c.ast = getTreeHash e))) := by
  induction rest generalizing pre with
  | nil => rfl
  | cons g gs ih =>
    have hg : cd.data.getD pre.length [] = ([] : OrGroup) ++ g := by
      rw [hd]
      simpa using getD_append_length pre g gs []
    have h1 := collectGroup_map_atomAt cd e pre.length [] g hg
    simp only [List.length_nil] at h1
    have hd2 : cd.data = (pre ++ [g]) ++ gs := by rw [hd]; simp
    have ih2 := ih (pre ++ [g]) hd2
    have hlen : (pre ++ [g]).length = pre.length + 1 := by simp
    rw [hlen] at ih2
    simp [collectAtomIds, List.map_append, h1, ih2]

theorem getAtoms_resolved (cd : ConstraintsDescription) (e : Expr) :
    (collectAtomIds e 0 cd.data).map (atomAt cd)
      = cd.data.flatMap (fun g => g.filter (fun c => decide (getTreeHash c.ast = getTreeHash e))) :=
  collectAtomIds_map_atomAt cd e [] cd.data rfl

theorem matchAtoms_not_match_iff (a b : AtomicFormula) :
    matchAtoms a b = MatchState.NOT_MATCH ↔
      getTreeHash a.ast = getTreeHash b.ast ∧ a.negative ≠ b.negative := by
  by_cases hh : getTreeHash a.ast = getTreeHash b.ast <;>
    cases ha : a.negative <;> cases hb : b.negative <;>
      simp [matchAtoms, hh, ha, hb]

theorem checkIfAtomAlwaysFalseFullMatch_iff (atom : AtomicFormula) (cd : ConstraintsDescription) :
    checkIfAtomAlwaysFalseFullMatch atom cd = true ↔
      ∃ cg ∈ cd.data, ∃ c ∈ cg,
        getTreeHash c.ast = getTreeHash atom.ast ∧ c.negative ≠ atom.negative := by
  have hres := getAtoms_resolved cd atom.ast
  have key : ∀ l : List AtomId,
      l.map (atomAt cd) = cd.data.flatMap
        (fun g => g.filter (fun c => decide (getTreeHash c.ast = getTreeHash atom.ast))) →
      ((l.map (atomAt cd)).any
          (fun c => decide (matchAtoms c atom = MatchState.NOT_MATCH)) = true ↔
        ∃ cg ∈ cd.data, ∃ c ∈ cg,
          getTreeHash c.ast = getTreeHash atom.ast ∧ c.negative ≠ atom.negative) := by
    intro l hl
    rw [hl, List.any_eq_true]
    constructor
    · rintro ⟨c, hcmem, hcp⟩
      rw [List.mem_flatMap] at hcmem
      obtain ⟨cg, hcg, hcf⟩ := hcmem
      rw [List.mem_filter] at hcf
      have hnm := (matchAtoms_not_match_iff c atom).1 (by simpa using hcp)
      exact ⟨cg, hcg, c, hcf.1, hnm⟩
    · rintro ⟨cg, hcg, c, hcmem, hhash, hneg⟩
      refine ⟨c, ?_, ?_⟩
      · rw [List.mem_flatMap]
        exact ⟨cg, hcg, by rw [List.mem_filter]; exact ⟨hcmem, by simpa using hhash⟩⟩
      · simpa using (matchAtoms_not_match_iff c atom).2 ⟨hhash, hneg⟩
  unfold checkIfAtomAlwaysFalseFullMatch ConstraintsDescription.getAtomIds
  by_cases hemp : (collectAtomIds atom.ast 0 cd.data).isEmpty
  · have hnil : collectAtomIds atom.ast 0 cd.data = [] := by
      rwa [List.isEmpty_iff] at hemp
    rw [hnil] at hres
    simp only [hnil, List.isEmpty_nil, if_true]
    rw [Iff.comm, ← key [] hres]
    simp
  · simp only [hemp, if_false]
    have := key (collectAtomIds atom.ast 0 cd.data) hres
    rw [← this]
    rfl

theorem checkIfAtomAlwaysFalseGraph_iff (atom : AtomicFormula) (graph : ComparisonGraph) :
    checkIfAtomAlwaysFalseGraph atom graph = true ↔
      ∃ n x y, atom.ast = Expr.func n [x, y] ∧
        graph.isPossibleCompare (getExpectedCompare atom) x y = false := by
  obtain ⟨neg, ast⟩ := atom
  cases ast with
  | column nm => simp [checkIfAtomAlwaysFalseGraph]
  | literal v => simp [checkIfAtomAlwaysFalseGraph]
  | func nm args =>
    cases args with
    | nil => simp [checkIfAtomAlwaysFalseGraph]
    | cons x args1 =>
      cases args1 with
      | nil => simp [checkIfAtomAlwaysFalseGraph]
      | cons y args2 =>
        cases args2 with
        | nil =>
          rw [show checkIfAtomAlwaysFalseGraph (AtomicFormula.mk neg (Expr.func nm [x, y])) graph
                = !(graph.isPossibleCompare
                    (getExpectedCompare (AtomicFormula.mk neg (Expr.func nm [x, y]))) x y)
                from rfl]
          constructor
          · intro h
            refine ⟨nm, x, y, rfl, ?_⟩
            simpa using h
          · rintro ⟨n2, x2, y2, heq, hposs⟩
            have h3 : nm = n2 ∧ x = x2 ∧ y = y2 := by simpa using heq
            obtain ⟨-, hx, hy⟩ := h3
            subst hx
            subst hy
            simp [hposs]
        | cons z args3 => simp [checkIfAtomAlwaysFalseGraph]

/-- C5 (amended): an atom is removed by the filterAlwaysFalseAtoms step
(lines 168-172) exactly when (a) some declared constraint atom has an
expression with the same structural fingerprint (tree hash) and opposite
polarity, or (b) the atom's expression is a function of two arguments and
`isPossibleCompare` is false for its negation-adjusted relation; atoms whose
expression is not a binary function are never removed by the graph check. -/
theorem atom_removal_criterion (atom : AtomicFormula) (cd : ConstraintsDescription) :
    atomRemovedByFalseFilter atom cd = true ↔
      ((∃ cg ∈ cd.data, ∃ c ∈ cg,
          getTreeHash c.ast = getTreeHash atom.ast ∧ c.negative ≠ atom.negative) ∨
        (∃ n x y, atom.ast = Expr.func n [x, y] ∧
          cd.getGraph.isPossibleCompare (getExpectedCompare atom) x y = false)) := by
  unfold atomRemovedByFalseFilter
  rw [Bool.or_eq_true, checkIfAtomAlwaysFalseFullMatch_iff, checkIfAtomAlwaysFalseGraph_iff]

/-- C5 counterexample: the atom Aa (a plain column, not a binary function) is
removed because its fingerprint collides with the declared negated atom BB,
although no declared constraint atom has the same expression with opposite
polarity — removal is keyed on fingerprint equality, not expression equality.
-/
theorem atom_removed_without_same_expression :
    atomRemovedByFalseFilter atomAa oppCd = true ∧
    ¬ ((∃ cg ∈ oppCd.data, ∃ c ∈ cg,
          c.ast = atomAa.ast ∧ c.negative ≠ atomAa.negative) ∨
        (∃ n x y, atomAa.ast = Expr.func n [x, y] ∧
          oppCd.getGraph.isPossibleCompare (getExpectedCompare atomAa) x y = false)) := by
  refine ⟨by decide, ?_⟩
  rintro (h | ⟨n, x, y, hast, -⟩)
  · exact absurd h (by decide)
  · rw [show atomAa.ast = Expr.column "Aa" from rfl] at hast
    exact Expr.noConfusion hast

theorem writeIntText_eq (s : Nat) (x : Int) :
    writeIntText s x =
      if x = 0 then ['0']
      else if x < 0 then
        (if wrapSigned s (-x) < 0 then intMinSpecial s
         else '-' :: writeDigits (wrapSigned s (-x)).toNat)
      else writeDigits x.toNat := rfl

theorem writeDigitsAux_eq (f : Nat) : ∀ (x : Nat) (acc : List Char), x < 10 ^ f →
    writeDigitsAux f x acc = ((Nat.digits 10 x).reverse.map decChar) ++ acc := by
  induction f with
  | zero =>
    intro x acc hx
    have hx0 : x = 0 := by omega
    subst hx0
    simp [writeDigitsAux]
  | succ f ih =>
    intro x acc hx
    by_cases h0 : x = 0
    · subst h0
      simp [writeDigitsAux]
    · rw [show writeDigitsAux (f + 1) x acc
            = if x = 0 then acc else writeDigitsAux f (x / 10) (decChar (x % 10) :: acc)
            from rfl]
      rw [if_neg h0]
      have hdiv : x / 10 < 10 ^ f := by
        rw [Nat.div_lt_iff_lt_mul (by norm_num)]
        calc x < 10 ^ (f + 1) := hx
        _ = 10 ^ f * 10 := by ring
      rw [ih (x / 10) (decChar (x % 10) :: acc) hdiv]
      rw [Nat.digits_def' (by norm_num : (1:Nat) < 10) (Nat.pos_of_ne_zero h0)]
      simp

theorem writeDigits_eq_natDecimal (x : Nat) (h0 : 0 < x) (hx : x < 10 ^ 20) :
    writeDigits x = natDecimalChars x := by
  unfold writeDigits natDecimalChars
  rw [if_neg (by omega : ¬ x = 0), writeDigitsAux_eq 20 x [] hx]
  simp

theorem writeIntText_zero (s : Nat) : writeIntText s 0 = intDecimalChars 0 := by
  rw [writeIntText_eq, if_pos rfl]
  unfold intDecimalChars natDecimalChars
  norm_num

theorem writeIntText_pos (s : Nat) (x : Int) (h0 : 0 < x) (hx : x < 10 ^ 20) :
    writeIntText s x = intDecimalChars x := by
  rw [writeIntText_eq, if_neg (by omega), if_neg (by omega)]
  unfold intDecimalChars
  rw [if_neg (by omega)]
  apply writeDigits_eq_natDecimal
  · omega
  · have h20 : (10:Nat) ^ 20 = 100000000000000000000 := by norm_num
    have h20i : (10:Int) ^ 20 = 100000000000000000000 := by norm_num
    omega

theorem writeIntText_neg (s : Nat) (hs1 : 1 ≤ s) (x : Int)
    (hneg : x < 0) (hgt : -(2 ^ (8 * s - 1)) < x)
    (hbound : (2:Int) ^ (8 * s - 1) ≤ 100000000000000000000) :
    writeIntText s x = intDecimalChars x := by
  have hp : (0:Int) < 2 ^ (8 * s - 1) := by positivity
  have hpows : (2:Int) ^ (8 * s - 1 + 1) = 2 ^ (8 * s - 1) * 2 := pow_succ 2 (8 * s - 1)
  have hple : (2:Int) ^ (8 * s - 1) * 2 ≤ 2 ^ (8 * s) := by
    rw [← hpows]
    apply pow_le_pow_right₀ (by norm_num)
    omega
  have hwrap : wrapSigned s (-x) = -x := by
    unfold wrapSigned
    rw [Int.emod_eq_of_lt (by omega) (by omega)]
    ring
  rw [writeIntText_eq, if_neg (by omega), if_pos hneg, hwrap, if_neg (by omega)]
  unfold intDecimalChars
  rw [if_pos hneg]
  have hargs : (-x).toNat = x.natAbs := by omega
  rw [hargs]
  congr 1
  apply writeDigits_eq_natDecimal
  · omega
  · have h20 : (10:Nat) ^ 20 = 100000000000000000000 := by norm_num
    omega

theorem writeIntText_decimal_core (s : Nat) (hs1 : 1 ≤ s) (x : Int)
    (hspecial : intMinSpecial s = '-' :: natDecimalChars ((2 ^ (8 * s - 1) : Int)).toNat)
    (hbound : (2:Int) ^ (8 * s) ≤ 100000000000000000000)
    (hwrapmin : wrapSigned s (2 ^ (8 * s - 1)) = -(2 ^ (8 * s - 1)))
    (hx : (-(2 ^ (8 * s - 1)) ≤ x ∧ x < 2 ^ (8 * s - 1))
        ∨ (0 ≤ x ∧ x < 2 ^ (8 * s))) :
    writeIntText s x = intDecimalChars x := by
  have hp : (0:Int) < 2 ^ (8 * s - 1) := by positivity
  have hmono : (2:Int) ^ (8 * s - 1) ≤ 2 ^ (8 * s) := by
    apply pow_le_pow_right₀ (by norm_num)
    omega
  rcases lt_trichotomy x 0 with hneg | rfl | hpos
  · have hxl : -(2 ^ (8 * s - 1)) ≤ x := by
      rcases hx with ⟨h1, h2⟩ | ⟨h1, h2⟩ <;> omega
    by_cases hmin : x = -(2 ^ (8 * s - 1))
    · subst hmin
      rw [writeIntText_eq, if_neg (by omega), if_pos (by omega), neg_neg, hwrapmin,
        if_pos (by omega), hspecial]
      unfold intDecimalChars
      rw [if_pos (by omega)]
      have hargs : ((2 ^ (8 * s - 1) : Int)).toNat = (-(2 ^ (8 * s - 1) : Int)).natAbs := by
        omega
      rw [hargs]
    · exact writeIntText_neg s hs1 x hneg (by omega) (by omega)
  · exact writeIntText_zero s
  · apply writeIntText_pos s x hpos
    have h20i : (10:Int) ^ 20 = 100000000000000000000 := by norm_num
    rcases hx with ⟨h1, h2⟩ | ⟨h1, h2⟩ <;> omega

theorem intMinSpecial_one :
    intMinSpecial 1 = '-' :: natDecimalChars ((2 ^ (8 * 1 - 1) : Int)).toNat := by
  rw [show ((2 ^ (8 * 1 - 1) : Int)).toNat = 128 from by decide]
  rw [← writeDigits_eq_natDecimal 128 (by norm_num) (by norm_num)]
  decide

theorem intMinSpecial_two :
    intMinSpecial 2 = '-' :: natDecimalChars ((2 ^ (8 * 2 - 1) : Int)).toNat := by
  rw [show ((2 ^ (8 * 2 - 1) : Int)).toNat = 32768 from by decide]
  rw [← writeDigits_eq_natDecimal 32768 (by norm_num) (by norm_num)]
  decide

theorem intMinSpecial_four :
    intMinSpecial 4 = '-' :: natDecimalChars ((2 ^ (8 * 4 - 1) : Int)).toNat := by
  rw [show ((2 ^ (8 * 4 - 1) : Int)).toNat = 2147483648 from by decide]
  rw [← writeDigits_eq_natDecimal 2147483648 (by norm_num) (by norm_num)]
  decide

theorem intMinSpecial_eight :
    intMinSpecial 8 = '-' :: natDecimalChars ((2 ^ (8 * 8 - 1) : Int)).toNat := by
  rw [show ((2 ^ (8 * 8 - 1) : Int)).toNat = 9223372036854775808 from by decide]
  rw [← writeDigits_eq_natDecimal 9223372036854775808 (by norm_num) (by norm_num)]
  decide

/-- C10: `writeIntText` (WriteHelpers.h lines 71-116) writes the exact decimal
numeral for every value of each supported integer width — 1, 2, 4 or 8 bytes,
signed (left range disjunct) or unsigned (right disjunct): the single digit 0
for zero, no leading zeros, a leading minus sign exactly when the value is
negative, and the correct numeral for the most negative value of each width
through its dedicated special case. -/
theorem writeIntText_decimal (s : Nat) (hs : s ∈ ([1, 2, 4, 8] : List Nat)) (x : Int)
    (hx : (-(2 ^ (8 * s - 1)) ≤ x ∧ x < 2 ^ (8 * s - 1))
        ∨ (0 ≤ x ∧ x < 2 ^ (8 * s))) :
    writeIntText s x = intDecimalChars x := by
  have hs4 : s = 1 ∨ s = 2 ∨ s = 4 ∨ s = 8 := by simpa using hs
  rcases hs4 with rfl | rfl | rfl | rfl
  · exact writeIntText_decimal_core 1 (by norm_num) x intMinSpecial_one (by norm_num) (by decide) hx
  · exact writeIntText_decimal_core 2 (by norm_num) x intMinSpecial_two (by norm_num) (by decide) hx
  · exact writeIntText_decimal_core 4 (by norm_num) x intMinSpecial_four (by norm_num) (by decide) hx
  · exact writeIntText_decimal_core 8 (by norm_num) x intMinSpecial_eight (by norm_num) (by decide) hx

theorem writeIntText_decimal_witness :
    writeIntText 8 (-5) = intDecimalChars (-5) :=
  writeIntText_decimal 8 (by decide) (-5) (Or.inl ⟨by norm_num, by norm_num⟩)
